import Mathlib

/-!
# Verification of `preprocess.py` (enron-preprocess)

Shallow embedding of the Enron email preprocessing script `src/preprocess.py`.
Python strings are modelled as `List Char`.  The script's regular expressions
are all of the form `LIT.*` (a literal followed by `.*`), substituted by the
empty string; with `re.DOTALL` such a substitution truncates the whole string
at the first occurrence of the literal, and without `re.DOTALL` it truncates
each line at the first occurrence of the literal (none of the literals used by
the script contains a newline, so a match never spans lines).  `re.IGNORECASE`
is modelled as comparison after `Char.toLower` (all literal characters are
ASCII).
-/

namespace Enron

/-- Python `str.isspace` / the character class stripped by `str.strip()`. -/
def pyIsSpace (c : Char) : Bool :=
  c == ' ' || c == '\t' || c == '\n' || c == '\r'
  || c == Char.ofNat 0x0b || c == Char.ofNat 0x0c
  || (0x1c ≤ c.toNat && c.toNat ≤ 0x1f) || c.toNat == 0x85 || c.toNat == 0xa0
  || c.toNat == 0x1680 || (0x2000 ≤ c.toNat && c.toNat ≤ 0x200a)
  || c.toNat == 0x2028 || c.toNat == 0x2029 || c.toNat == 0x202f
  || c.toNat == 0x205f || c.toNat == 0x3000

/-- Remove trailing characters satisfying `pyIsSpace` (right half of `str.strip()`). -/
def stripRight : List Char → List Char
  | [] => []
  | c :: cs =>
    if stripRight cs = [] ∧ pyIsSpace c then [] else c :: stripRight cs

/-- Python `str.strip()` with no argument: remove leading and trailing whitespace. -/
def pyStrip (s : List Char) : List Char :=
  stripRight (s.dropWhile pyIsSpace)

/-- Python `text.split("\n")`: split into lines at newline characters.
`splitLines [] = [[]]`, matching `"".split("\n") == [""]`. -/
def splitLines : List Char → List (List Char)
  | [] => [[]]
  | c :: cs =>
    if c = '\n' then [] :: splitLines cs
    else
      match splitLines cs with
      | [] => [[c]]
      | l :: ls => (c :: l) :: ls

/-- Python `"\n".join(lines)`. -/
def joinLines : List (List Char) → List Char
  | [] => []
  | [l] => l
  | l :: l' :: ls => l ++ '\n' :: joinLines (l' :: ls)

/-- Character comparison used by the regex literals: exact equality, or
equality after `Char.toLower` when the pattern carries `re.IGNORECASE`. -/
def chEq (ci : Bool) (a b : Char) : Bool :=
  if ci then decide (a.toLower = b.toLower) else decide (a = b)

/-- Whether the literal `lit` matches at the start of `s`. -/
def litMatches (ci : Bool) : List Char → List Char → Bool
  | [], _ => true
  | _ :: _, [] => false
  | a :: as, b :: bs => chEq ci a b && litMatches ci as bs

/-- Whether the literal `lit` occurs somewhere in `s`. -/
def containsLit (ci : Bool) (lit : List Char) : List Char → Bool
  | [] => litMatches ci lit []
  | c :: cs => litMatches ci lit (c :: cs) || containsLit ci lit cs

/-- Truncate `s` at the first occurrence of the literal `lit`: the model of
`re.sub(r"LIT.*", "", s, flags=re.DOTALL [| re.IGNORECASE])` for a
newline-free, non-empty literal. -/
def truncAt (ci : Bool) (lit : List Char) : List Char → List Char
  | [] => []
  | c :: cs => if litMatches ci lit (c :: cs) then [] else c :: truncAt ci lit cs

/-- Per-line truncation at the first occurrence of `lit`: the model of
`re.sub(r"LIT.*", "", s)` (no `re.DOTALL`) for a newline-free, non-empty,
case-sensitively matched literal. -/
def sublineSub (lit : List Char) (s : List Char) : List Char :=
  joinLines ((splitLines s).map (truncAt false lit))

/-- Drop lines that are empty after stripping, and rejoin: the model of
`"\n".join([line for line in text.split("\n") if line.strip() != ""])`. -/
def dropBlankLines (s : List Char) : List Char :=
  joinLines ((splitLines s).filter (fun l => !l.all pyIsSpace))

/-- The final whitespace normalization of `clean_text`
(blank-line removal followed by `text.strip()`). -/
def normalizeWs (s : List Char) : List Char :=
  pyStrip (dropBlankLines s)

/-! The literals of the script's regular expressions. -/

def origMsgLit : List Char := ("-----Original Message-----").toList
def fromLit : List Char := ("From:").toList
def toLit : List Char := ("To:").toList
def sentLit : List Char := ("Sent:").toList
def subjectLit : List Char := ("Subject:").toList
def gtLit : List Char := ['>']
def sincerelyLit : List Char := ("Sincerely").toList
def bestRegardsLit : List Char := ("Best regards").toList
def confNoticeLit : List Char := ("Confidentiality Notice").toList

/-- A Python value as it may appear in the `body` column: a string, or any
non-string value (`None`, a float, ...). -/
inductive PyVal where
  | pstr (s : List Char)
  | other
deriving DecidableEq

/-- Python `isinstance(text, str)`. -/
def PyVal.isStr : PyVal → Bool
  | PyVal.pstr _ => true
  | PyVal.other => false

/-- The string branch of `clean_text`: the nine `re.sub` substitutions in
source order, then blank-line removal and `strip()`. -/
def cleanStr (s : List Char) : List Char :=
  normalizeWs
    (truncAt true confNoticeLit
      (truncAt true bestRegardsLit
        (truncAt true sincerelyLit
          (sublineSub gtLit
            (sublineSub subjectLit
              (sublineSub sentLit
                (sublineSub toLit
                  (sublineSub fromLit
                    (truncAt true origMsgLit s)))))))))

/-- The function `clean_text` from `preprocess.py`: returns `""` on non-string input,
otherwise strips boilerplate from the email body. -/
def clean_text : PyVal → List Char
  | PyVal.pstr s => cleanStr s
  | PyVal.other => []

/-! ## PII anonymization (`anonymize_text` and the Presidio engines) -/

/-- A PII entity span found by the analyzer (Presidio `RecognizerResult`):
an entity type and the half-open character range `[start, stop)`. -/
structure RecognizerResult where
  entity_type : List Char
  start : Nat
  stop : Nat
deriving DecidableEq

/-- An anonymizer operator.  The script only ever configures
`OperatorConfig("replace", {"new_value": ...})`, which substitutes the span
with the fixed string `new_value`. -/
inductive AnonOperator where
  | replace (new_value : List Char)
deriving DecidableEq

/-- Modelled from the spec: Presidio's anonymizer resolves the operator for an
entity from the `operators` mapping, falling back to the `"DEFAULT"` entry when
the entity type has no entry of its own. -/
def operatorFor (ops : List (List Char × AnonOperator)) (ety : List Char) :
    Option AnonOperator :=
  match ops.lookup ety with
  | some op => some op
  | none => ops.lookup ("DEFAULT").toList

/-- The text produced by an operator for a detected span (`orig` is the
original span text, ignored by `replace`). -/
def applyOp : AnonOperator → List Char → List Char
  | AnonOperator.replace nv, _ => nv

/-- Replace the character range `[st, en)` of `s` by `nv`. -/
def replaceSpan (s : List Char) (st en : Nat) (nv : List Char) : List Char :=
  s.take st ++ nv ++ s.drop en

/-- Modelled from the spec: `AnonymizerEngine.anonymize` is not part of this
repository.  Per the spec's glossary — "Anonymization: replacing detected
sensitive text spans with a fixed redaction token" — it rewrites each detected
span with its operator's output; spans are processed from the last to the
first (`foldr` over results sorted by position) so that earlier positions stay
valid.  A span whose entity type resolves to no operator is left unchanged. -/
def presidio_anonymize (s : List Char) (results : List RecognizerResult)
    (ops : List (List Char × AnonOperator)) : List Char :=
  results.foldr
    (fun r acc =>
      match operatorFor ops r.entity_type with
      | some op => replaceSpan acc r.start r.stop (applyOp op ((acc.take r.stop).drop r.start))
      | none => acc)
    s

/-- The `operators` argument built by `anonymize_text`:
`{"DEFAULT": OperatorConfig("replace", {"new_value": "<REDACTED>"})}`. -/
def srcOperators : List (List Char × AnonOperator) :=
  [(("DEFAULT").toList, AnonOperator.replace ("<REDACTED>").toList)]

/-- The spec's description of anonymization, stated independently of the
operator machinery: every detected span is replaced by the fixed redaction
token `"<REDACTED>"`. -/
def spec_redact (s : List Char) (results : List RecognizerResult) : List Char :=
  results.foldr (fun r acc => replaceSpan acc r.start r.stop ("<REDACTED>").toList) s

/-- The two Presidio calls inside the `try:` block of `anonymize_text`:
`analyzer.analyze` followed by `anonymizer.anonymize`.  The engines are
external, so they are parameters; `Except.error e` models a raised exception
with message `e`. -/
def anonymizeAttempt
    (analyzer : List Char → Except (List Char) (List RecognizerResult))
    (anonymizer : List Char → List RecognizerResult → Except (List Char) (List Char))
    (s : List Char) : Except (List Char) (List Char) :=
  match analyzer s with
  | Except.error e => Except.error e
  | Except.ok rs => anonymizer s rs

/-- The message printed by the `except` branch of `anonymize_text`. -/
def logMsg (e : List Char) : List Char :=
  ("Anonymization failed for a text snippet: ").toList ++ e

/-- The function `anonymize_text` from `preprocess.py`.  The input is `none` for Python
`None` and `some s` for a string; the result pairs the returned text with the
list of lines printed to standard output. -/
def anonymize_text
    (analyzer : List Char → Except (List Char) (List RecognizerResult))
    (anonymizer : List Char → List RecognizerResult → Except (List Char) (List Char))
    (text : Option (List Char)) : List Char × List (List Char) :=
  match text with
  | none => ([], [])
  | some s =>
    if s.isEmpty then ([], [])
    else
      match anonymizeAttempt analyzer anonymizer s with
      | Except.ok out => (out, [])
      | Except.error e => (s, [logMsg e])

/-! ## The `main` pipeline -/

/-- One successfully parsed email: the `From` header (possibly absent) and the
extracted plain-text body. -/
structure ParsedEmail where
  sender : Option (List Char)
  body : List Char
deriving DecidableEq

/-- A row of the final table: columns `sender` and `text`. -/
structure OutRow where
  sender : Option (List Char)
  text : List Char
deriving DecidableEq

/-- The parsing loop of `main`.  Each input file is modelled by its outcome:
`Except.ok p` when reading and parsing succeed, `Except.error ()` when an
exception is raised.  Returns the built-up row list together with the lines
printed inside the loop (the `except` branch is `pass`, so none). -/
def parseStep : List (Except Unit ParsedEmail) → List ParsedEmail × List (List Char)
  | [] => ([], [])
  | Except.ok p :: fs => ((p :: (parseStep fs).1), (parseStep fs).2)
  | Except.error _ :: fs => parseStep fs

/-- The text a parsed email carries after cleaning and anonymization
(`anonymize_text(clean_text(body), ...)`), prints discarded. -/
def processedText
    (analyzer : List Char → Except (List Char) (List RecognizerResult))
    (anonymizer : List Char → List RecognizerResult → Except (List Char) (List Char))
    (p : ParsedEmail) : List Char :=
  (anonymize_text analyzer anonymizer (some (clean_text (PyVal.pstr p.body)))).1

/-- The table transformations of `main`: build the rows from the parse
outcomes, derive `cleaned_body` and `anonymized_body` column by column, keep
`sender` and the renamed `text` column, and drop rows whose text strips to the
empty string.  The result is the list of rows written to the output file. -/
def mainPipeline
    (analyzer : List Char → Except (List Char) (List RecognizerResult))
    (anonymizer : List Char → List RecognizerResult → Except (List Char) (List Char))
    (files : List (Except Unit ParsedEmail)) : List OutRow :=
  let rows := (parseStep files).1
  let cleaned_body := rows.map (fun r => clean_text (PyVal.pstr r.body))
  let anonymized_body :=
    cleaned_body.map (fun t => (anonymize_text analyzer anonymizer (some t)).1)
  let final := (rows.zip anonymized_body).map (fun rt => OutRow.mk rt.1.sender rt.2)
  final.filter (fun row => !(pyStrip row.text).isEmpty)

/-! ## Sanity checks of the embedding on concrete inputs -/

theorem cleanStr_example_plain : cleanStr ("hi").toList = ['h', 'i'] := by decide

theorem cleanStr_example_header : cleanStr ("From: a\nhello\n\n  \nworld  ").toList
    = ("hello\nworld").toList := by decide

theorem cleanStr_example_quote_signature :
    cleanStr ("a > b\nkeep\nsincerely yours\ngone").toList
      = ('a' :: ' ' :: '\n' :: ("keep").toList) := by decide

/-! ## Helper lemmas: literal matching, containment and truncation -/

theorem litMatches_nil (ci : Bool) (s : List Char) : litMatches ci [] s = true := by
  cases s <;> rfl

theorem litMatches_append (ci : Bool) (lit x t : List Char)
    (h : litMatches ci lit x = true) : litMatches ci lit (x ++ t) = true := by
  induction lit generalizing x with
  | nil => exact litMatches_nil ci (x ++ t)
  | cons a as ih =>
    cases x with
    | nil => simp [litMatches] at h
    | cons b bs =>
      simp only [litMatches, Bool.and_eq_true, List.cons_append] at h ⊢
      exact ⟨h.1, ih bs h.2⟩

theorem containsLit_nil_lit (ci : Bool) (s : List Char) : containsLit ci [] s = true := by
  cases s <;> rfl

theorem containsLit_nil (ci : Bool) (lit : List Char) (hlit : lit ≠ []) :
    containsLit ci lit [] = false := by
  cases lit with
  | nil => exact absurd rfl hlit
  | cons a as => rfl

theorem containsLit_cons (ci : Bool) (lit : List Char) (c : Char) (cs : List Char) :
    containsLit ci lit (c :: cs)
      = (litMatches ci lit (c :: cs) || containsLit ci lit cs) := by
  cases lit <;> rfl

theorem containsLit_append_left (ci : Bool) (lit x t : List Char)
    (h : containsLit ci lit x = true) : containsLit ci lit (x ++ t) = true := by
  induction x with
  | nil =>
    cases lit with
    | nil => exact containsLit_nil_lit ci t
    | cons a as => simp [containsLit, litMatches] at h
  | cons c x ih =>
    rw [containsLit_cons] at h
    rw [List.cons_append, containsLit_cons]
    rcases Bool.or_eq_true_iff.mp h with h1 | h2
    · rw [← List.cons_append]
      rw [litMatches_append ci lit (c :: x) t h1]
      rfl
    · rw [ih h2, Bool.or_true]

theorem containsLit_append_right (ci : Bool) (lit x y : List Char)
    (h : containsLit ci lit y = true) : containsLit ci lit (x ++ y) = true := by
  induction x with
  | nil => exact h
  | cons c x ih =>
    rw [List.cons_append, containsLit_cons, ih, Bool.or_true]

theorem truncAt_append (ci : Bool) (lit s : List Char) :
    ∃ t, truncAt ci lit s ++ t = s := by
  induction s with
  | nil => exact ⟨[], rfl⟩
  | cons c cs ih =>
    cases h : litMatches ci lit (c :: cs) with
    | true => exact ⟨c :: cs, by simp [truncAt, h]⟩
    | false =>
      obtain ⟨t, ht⟩ := ih
      exact ⟨t, by simp [truncAt, h, ht]⟩

theorem containsLit_truncAt_self (ci : Bool) (lit s : List Char) (hlit : lit ≠ []) :
    containsLit ci lit (truncAt ci lit s) = false := by
  induction s with
  | nil => exact containsLit_nil ci lit hlit
  | cons c cs ih =>
    cases h : litMatches ci lit (c :: cs) with
    | true => simpa [truncAt, h] using containsLit_nil ci lit hlit
    | false =>
      rw [show truncAt ci lit (c :: cs) = c :: truncAt ci lit cs by simp [truncAt, h]]
      rw [containsLit_cons, ih, Bool.or_false]
      cases hm : litMatches ci lit (c :: truncAt ci lit cs) with
      | false => rfl
      | true =>
        obtain ⟨t, ht⟩ := truncAt_append ci lit cs
        have h2 := litMatches_append ci lit (c :: truncAt ci lit cs) t hm
        rw [List.cons_append, ht, h] at h2
        exact h2.symm

theorem truncAt_of_not_contains (ci : Bool) (lit s : List Char)
    (h : containsLit ci lit s = false) : truncAt ci lit s = s := by
  induction s with
  | nil => rfl
  | cons c cs ih =>
    rw [containsLit_cons, Bool.or_eq_false_iff] at h
    simp [truncAt, h.1, ih h.2]

theorem not_contains_truncAt_mono (ci2 : Bool) (lit2 : List Char) (ci : Bool)
    (lit s : List Char) (h : containsLit ci lit s = false) :
    containsLit ci lit (truncAt ci2 lit2 s) = false := by
  cases hc : containsLit ci lit (truncAt ci2 lit2 s) with
  | false => rfl
  | true =>
    obtain ⟨t, ht⟩ := truncAt_append ci2 lit2 s
    have h2 := containsLit_append_left ci lit _ t hc
    rw [ht, h] at h2
    exact h2.symm

/-! ## Helper lemmas: splitting into and joining lines -/

theorem splitLines_ne_nil (s : List Char) : splitLines s ≠ [] := by
  cases s with
  | nil => simp [splitLines]
  | cons c cs =>
    by_cases h : c = '\n'
    · simp [splitLines, h]
    · simp only [splitLines, if_neg h]
      cases splitLines cs <;> simp

theorem joinLines_cons_of_ne_nil (l : List Char) (ls : List (List Char)) (h : ls ≠ []) :
    joinLines (l :: ls) = l ++ '\n' :: joinLines ls := by
  cases ls with
  | nil => exact absurd rfl h
  | cons l' ls' => rfl

theorem joinLines_splitLines (s : List Char) : joinLines (splitLines s) = s := by
  induction s with
  | nil => rfl
  | cons c cs ih =>
    by_cases h : c = '\n'
    · rw [show splitLines (c :: cs) = [] :: splitLines cs by simp [splitLines, h]]
      rw [joinLines_cons_of_ne_nil [] (splitLines cs) (splitLines_ne_nil cs), ih, h]
      rfl
    · cases hsp : splitLines cs with
      | nil => exact absurd hsp (splitLines_ne_nil cs)
      | cons l ls =>
        rw [hsp] at ih
        rw [show splitLines (c :: cs) = (c :: l) :: ls by
          simp only [splitLines, if_neg h, hsp]]
        cases ls with
        | nil =>
          show c :: l = c :: cs
          rw [show joinLines [l] = l from rfl] at ih
          rw [ih]
        | cons l' ls' =>
          rw [joinLines_cons_of_ne_nil (c :: l) (l' :: ls') (by simp)]
          rw [joinLines_cons_of_ne_nil l (l' :: ls') (by simp)] at ih
          rw [List.cons_append, ih]

theorem no_newline_of_mem_splitLines (l s : List Char) (h : l ∈ splitLines s) :
    '\n' ∉ l := by
  induction s generalizing l with
  | nil =>
    simp only [splitLines, List.mem_singleton] at h
    simp [h]
  | cons c cs ih =>
    by_cases hc : c = '\n'
    · rw [show splitLines (c :: cs) = [] :: splitLines cs by simp [splitLines, hc]] at h
      rcases List.mem_cons.mp h with h1 | h2
      · simp [h1]
      · exact ih l h2
    · cases hsp : splitLines cs with
      | nil => exact absurd hsp (splitLines_ne_nil cs)
      | cons l0 ls0 =>
        rw [show splitLines (c :: cs) = (c :: l0) :: ls0 by
          simp only [splitLines, if_neg hc, hsp]] at h
        rcases List.mem_cons.mp h with h1 | h2
        · subst h1
          intro hmem
          rcases List.mem_cons.mp hmem with h3 | h4
          · exact hc h3.symm
          · exact ih l0 (hsp ▸ List.mem_cons_self l0 ls0) h4
        · exact ih l (hsp ▸ List.mem_cons_of_mem l0 h2)

theorem splitLines_no_newline (l : List Char) (h : '\n' ∉ l) : splitLines l = [l] := by
  induction l with
  | nil => rfl
  | cons c l' ih =>
    have hc : ¬c = '\n' := fun hc => h (hc ▸ List.mem_cons_self c l')
    have h' : '\n' ∉ l' := fun hm => h (List.mem_cons_of_mem c hm)
    simp only [splitLines, if_neg hc, ih h']

theorem splitLines_append_newline (l t : List Char) (h : '\n' ∉ l) :
    splitLines (l ++ '\n' :: t) = l :: splitLines t := by
  induction l with
  | nil => simp [splitLines]
  | cons c l' ih =>
    have hc : ¬c = '\n' := fun hc => h (hc ▸ List.mem_cons_self c l')
    have h' : '\n' ∉ l' := fun hm => h (List.mem_cons_of_mem c hm)
    rw [List.cons_append]
    simp only [splitLines, if_neg hc, ih h']

theorem splitLines_joinLines (ls : List (List Char)) (hne : ls ≠ [])
    (h : ∀ l ∈ ls, '\n' ∉ l) : splitLines (joinLines ls) = ls := by
  induction ls with
  | nil => exact absurd rfl hne
  | cons l ls ih =>
    cases ls with
    | nil => exact splitLines_no_newline l (h l (List.mem_cons_self l []))
    | cons l' ls' =>
      rw [joinLines_cons_of_ne_nil l (l' :: ls') (by simp)]
      rw [splitLines_append_newline l (joinLines (l' :: ls')) (h l (List.mem_cons_self l _))]
      rw [ih (by simp) (fun x hx => h x (List.mem_cons_of_mem l hx))]

/-! ## Helper lemmas: containment across lines -/

theorem litMatches_stop_newline (ci : Bool) (lit : List Char)
    (hnl : ∀ a ∈ lit, chEq ci a '\n' = false) (x y : List Char) :
    litMatches ci lit (x ++ '\n' :: y) = litMatches ci lit x := by
  induction lit generalizing x with
  | nil => rw [litMatches_nil, litMatches_nil]
  | cons a as ih =>
    cases x with
    | nil =>
      show litMatches ci (a :: as) ('\n' :: y) = litMatches ci (a :: as) []
      show (chEq ci a '\n' && litMatches ci as y) = false
      rw [hnl a (List.mem_cons_self a as), Bool.false_and]
    | cons b x' =>
      rw [List.cons_append]
      show (chEq ci a b && litMatches ci as (x' ++ '\n' :: y))
        = (chEq ci a b && litMatches ci as x')
      rw [ih (fun c hc => hnl c (List.mem_cons_of_mem a hc)) x']

theorem containsLit_append_newline (ci : Bool) (lit : List Char) (hlit : lit ≠ [])
    (hnl : ∀ a ∈ lit, chEq ci a '\n' = false) (x y : List Char) :
    containsLit ci lit (x ++ '\n' :: y)
      = (containsLit ci lit x || containsLit ci lit y) := by
  induction x with
  | nil =>
    rw [List.nil_append, containsLit_cons, containsLit_nil ci lit hlit, Bool.false_or]
    have : litMatches ci lit ('\n' :: y) = litMatches ci lit [] :=
      litMatches_stop_newline ci lit hnl [] y
    rw [this]
    cases lit with
    | nil => exact absurd rfl hlit
    | cons a as => rw [show litMatches ci (a :: as) [] = false from rfl, Bool.false_or]
  | cons c x' ih =>
    rw [List.cons_append, containsLit_cons, ih, containsLit_cons]
    have : litMatches ci lit (c :: (x' ++ '\n' :: y)) = litMatches ci lit (c :: x') := by
      rw [← List.cons_append]
      exact litMatches_stop_newline ci lit hnl (c :: x') y
    rw [this, Bool.or_assoc]

theorem containsLit_joinLines (ci : Bool) (lit : List Char) (hlit : lit ≠ [])
    (hnl : ∀ a ∈ lit, chEq ci a '\n' = false) (ls : List (List Char)) :
    containsLit ci lit (joinLines ls) = ls.any (fun l => containsLit ci lit l) := by
  induction ls with
  | nil => rw [show joinLines [] = [] from rfl, containsLit_nil ci lit hlit, List.any_nil]
  | cons l ls ih =>
    cases ls with
    | nil =>
      rw [show joinLines [l] = l from rfl, List.any_cons, List.any_nil, Bool.or_false]
    | cons l' ls' =>
      rw [joinLines_cons_of_ne_nil l (l' :: ls') (by simp)]
      rw [containsLit_append_newline ci lit hlit hnl, ih]
      simp [List.any_cons]

theorem lines_not_contains_of_not_contains (ci : Bool) (lit s : List Char)
    (hlit : lit ≠ []) (hnl : ∀ a ∈ lit, chEq ci a '\n' = false)
    (h : containsLit ci lit s = false) :
    ∀ l ∈ splitLines s, containsLit ci lit l = false := by
  have hjoin := containsLit_joinLines ci lit hlit hnl (splitLines s)
  rw [joinLines_splitLines, h] at hjoin
  intro l hl
  exact Bool.eq_false_iff.mpr ((List.any_eq_false.mp hjoin.symm) l hl)

/-! ## Helper lemmas: per-line substitution -/

theorem not_contains_sublineSub_self (lit s : List Char) (hlit : lit ≠ [])
    (hnl : ∀ a ∈ lit, chEq false a '\n' = false) :
    containsLit false lit (sublineSub lit s) = false := by
  unfold sublineSub
  rw [containsLit_joinLines false lit hlit hnl, List.any_map]
  apply List.any_eq_false.mpr
  intro l _
  simp [Function.comp_apply, containsLit_truncAt_self false lit l hlit]

theorem not_contains_sublineSub_mono (lit2 : List Char) (ci : Bool) (lit s : List Char)
    (hlit : lit ≠ []) (hnl : ∀ a ∈ lit, chEq ci a '\n' = false)
    (h : containsLit ci lit s = false) :
    containsLit ci lit (sublineSub lit2 s) = false := by
  unfold sublineSub
  rw [containsLit_joinLines ci lit hlit hnl, List.any_map]
  apply List.any_eq_false.mpr
  intro l hl
  have hx := not_contains_truncAt_mono false lit2 ci lit l
    (lines_not_contains_of_not_contains ci lit s hlit hnl h l hl)
  simp [Function.comp_apply, hx]

theorem sublineSub_of_not_contains (lit s : List Char) (hlit : lit ≠ [])
    (hnl : ∀ a ∈ lit, chEq false a '\n' = false)
    (h : containsLit false lit s = false) : sublineSub lit s = s := by
  unfold sublineSub
  have hlines := lines_not_contains_of_not_contains false lit s hlit hnl h
  have hmap : ∀ ls0 : List (List Char), (∀ l ∈ ls0, containsLit false lit l = false) →
      ls0.map (truncAt false lit) = ls0 := by
    intro ls0 h0
    induction ls0 with
    | nil => rfl
    | cons l ls ih =>
      rw [List.map_cons, truncAt_of_not_contains false lit l (h0 l (List.mem_cons_self l ls)),
        ih (fun x hx => h0 x (List.mem_cons_of_mem l hx))]
  rw [hmap (splitLines s) hlines, joinLines_splitLines]

/-! ## Helper lemmas: stripping whitespace -/

theorem stripRight_eq_nil_iff (s : List Char) :
    stripRight s = [] ↔ s.all pyIsSpace = true := by
  induction s with
  | nil => simp [stripRight]
  | cons c cs ih =>
    by_cases h1 : stripRight cs = []
    · by_cases h2 : pyIsSpace c
      · simp [stripRight, h1, h2, List.all_cons, ih.mp h1]
      · simp [stripRight, h1, h2, List.all_cons]
    · have hcs : cs.all pyIsSpace = false := by
        cases hall : cs.all pyIsSpace with
        | false => rfl
        | true => exact absurd (ih.mpr hall) h1
      simp [stripRight, h1, List.all_cons, hcs]

theorem stripRight_append (x y : List Char) (h : stripRight y ≠ []) :
    stripRight (x ++ y) = x ++ stripRight y := by
  induction x with
  | nil => simp
  | cons c x' ih =>
    have hne : x' ++ stripRight y ≠ [] := fun hc => h (List.append_eq_nil.mp hc).2
    simp [stripRight, ih, hne]

theorem stripRight_append_exists (s : List Char) : ∃ t, stripRight s ++ t = s := by
  induction s with
  | nil => exact ⟨[], rfl⟩
  | cons c cs ih =>
    by_cases hb : stripRight cs = [] ∧ pyIsSpace c
    · exact ⟨c :: cs, by simp [stripRight, hb]⟩
    · obtain ⟨t, ht⟩ := ih
      exact ⟨t, by simp [stripRight, hb, ht]⟩

theorem stripRight_idem (s : List Char) : stripRight (stripRight s) = stripRight s := by
  induction s with
  | nil => rfl
  | cons c cs ih =>
    by_cases hb : stripRight cs = [] ∧ pyIsSpace c
    · simp [stripRight, hb]
    · simp [stripRight, hb, ih]

theorem dropWhile_idem {α : Type} (p : α → Bool) (s : List α) :
    (s.dropWhile p).dropWhile p = s.dropWhile p := by
  induction s with
  | nil => rfl
  | cons c cs ih =>
    by_cases h : p c = true
    · simp [List.dropWhile_cons, h, ih]
    · simp [List.dropWhile_cons, h]

theorem length_dropWhile_le {α : Type} (p : α → Bool) (l : List α) :
    (l.dropWhile p).length ≤ l.length := by
  induction l with
  | nil => exact Nat.le_refl 0
  | cons a l ih =>
    rw [List.dropWhile_cons]
    by_cases hp : p a = true
    · rw [if_pos hp]
      exact Nat.le_succ_of_le ih
    · rw [if_neg hp]

theorem dropWhile_stripRight (u : List Char) (hu : u.dropWhile pyIsSpace = u) :
    (stripRight u).dropWhile pyIsSpace = stripRight u := by
  cases u with
  | nil => rfl
  | cons c cs =>
    have hpc : pyIsSpace c = false := by
      cases hp : pyIsSpace c with
      | false => rfl
      | true =>
        rw [List.dropWhile_cons, if_pos hp] at hu
        have hlen := congrArg List.length hu
        have hle := length_dropWhile_le pyIsSpace cs
        rw [List.length_cons] at hlen
        omega
    by_cases hb : stripRight cs = [] ∧ pyIsSpace c
    · simp [stripRight, hb]
    · simp [stripRight, hb, List.dropWhile_cons, hpc]

theorem pyStrip_idem (s : List Char) : pyStrip (pyStrip s) = pyStrip s := by
  unfold pyStrip
  rw [dropWhile_stripRight (s.dropWhile pyIsSpace) (dropWhile_idem pyIsSpace s),
    stripRight_idem]

theorem not_contains_pyStrip_mono (ci : Bool) (lit s : List Char)
    (h : containsLit ci lit s = false) : containsLit ci lit (pyStrip s) = false := by
  cases hc : containsLit ci lit (pyStrip s) with
  | false => rfl
  | true =>
    exfalso
    obtain ⟨t, ht⟩ := stripRight_append_exists (s.dropWhile pyIsSpace)
    have h1 : containsLit ci lit (s.dropWhile pyIsSpace) = true := by
      rw [← ht]
      exact containsLit_append_left ci lit _ t hc
    have h2 : containsLit ci lit s = true := by
      rw [← List.takeWhile_append_dropWhile pyIsSpace s]
      exact containsLit_append_right ci lit _ _ h1
    rw [h] at h2
    exact Bool.noConfusion h2

theorem all_takeWhile {α : Type} (p : α → Bool) (l : List α) :
    (l.takeWhile p).all p = true := by
  induction l with
  | nil => rfl
  | cons a l ih =>
    rw [List.takeWhile_cons]
    cases hp : p a with
    | false => simp
    | true => simp [hp, List.all_cons, ih]

theorem stripRight_not_all_space (s : List Char) (h : s.all pyIsSpace = false) :
    (stripRight s).all pyIsSpace = false := by
  induction s with
  | nil => simp at h
  | cons c cs ih =>
    rw [List.all_cons] at h
    by_cases hb : stripRight cs = [] ∧ pyIsSpace c
    · exfalso
      have hcs := (stripRight_eq_nil_iff cs).mp hb.1
      rw [hb.2, hcs] at h
      simp at h
    · rw [show stripRight (c :: cs) = c :: stripRight cs by simp [stripRight, hb]]
      rw [List.all_cons]
      cases hp : pyIsSpace c with
      | false => simp
      | true =>
        rw [hp] at h
        simp only [Bool.true_and] at h
        rw [ih h]
        simp

theorem dropWhile_not_all_space (s : List Char) (h : s.all pyIsSpace = false) :
    (s.dropWhile pyIsSpace).all pyIsSpace = false := by
  cases hall : (s.dropWhile pyIsSpace).all pyIsSpace with
  | false => rfl
  | true =>
    exfalso
    have hs : s.all pyIsSpace = true := by
      rw [← List.takeWhile_append_dropWhile pyIsSpace s, List.all_append]
      rw [all_takeWhile, hall]
      rfl
    rw [h] at hs
    exact Bool.noConfusion hs

theorem mem_of_mem_dropWhile {α : Type} (p : α → Bool) (a : α) (s : List α)
    (h : a ∈ s.dropWhile p) : a ∈ s := by
  induction s with
  | nil => exact h
  | cons c cs ih =>
    rw [List.dropWhile_cons] at h
    by_cases hp : p c = true
    · rw [if_pos hp] at h
      exact List.mem_cons_of_mem c (ih h)
    · rw [if_neg hp] at h
      exact h

theorem mem_of_mem_stripRight (a : Char) (s : List Char) (h : a ∈ stripRight s) :
    a ∈ s := by
  obtain ⟨t, ht⟩ := stripRight_append_exists s
  exact ht ▸ List.mem_append_left t h

/-! ## Helper lemmas: blank-line removal and final strip -/

theorem not_contains_dropBlankLines_mono (ci : Bool) (lit s : List Char) (hlit : lit ≠ [])
    (hnl : ∀ a ∈ lit, chEq ci a '\n' = false) (h : containsLit ci lit s = false) :
    containsLit ci lit (dropBlankLines s) = false := by
  unfold dropBlankLines
  rw [containsLit_joinLines ci lit hlit hnl]
  apply List.any_eq_false.mpr
  intro l hl
  have hmem : l ∈ splitLines s := List.mem_of_mem_filter hl
  have hfalse := lines_not_contains_of_not_contains ci lit s hlit hnl h l hmem
  simp [hfalse]

theorem not_contains_normalizeWs_mono (ci : Bool) (lit s : List Char) (hlit : lit ≠ [])
    (hnl : ∀ a ∈ lit, chEq ci a '\n' = false) (h : containsLit ci lit s = false) :
    containsLit ci lit (normalizeWs s) = false :=
  not_contains_pyStrip_mono ci lit (dropBlankLines s)
    (not_contains_dropBlankLines_mono ci lit s hlit hnl h)

theorem dropWhile_append_left {α : Type} (p : α → Bool) (x t : List α)
    (h : x.dropWhile p ≠ []) : (x ++ t).dropWhile p = x.dropWhile p ++ t := by
  induction x with
  | nil => exact absurd rfl h
  | cons c x' ih =>
    by_cases hp : p c = true
    · rw [List.cons_append, List.dropWhile_cons, if_pos hp, List.dropWhile_cons, if_pos hp]
      rw [List.dropWhile_cons, if_pos hp] at h
      exact ih h
    · rw [List.cons_append, List.dropWhile_cons, if_neg hp, List.dropWhile_cons, if_neg hp]
      rfl

theorem dropWhile_joinLines (l : List Char) (ls : List (List Char))
    (h : l.dropWhile pyIsSpace ≠ []) :
    (joinLines (l :: ls)).dropWhile pyIsSpace
      = joinLines (l.dropWhile pyIsSpace :: ls) := by
  cases ls with
  | nil => rfl
  | cons l2 ls2 =>
    rw [joinLines_cons_of_ne_nil l (l2 :: ls2) (by simp),
      dropWhile_append_left pyIsSpace l ('\n' :: joinLines (l2 :: ls2)) h,
      joinLines_cons_of_ne_nil (l.dropWhile pyIsSpace) (l2 :: ls2) (by simp)]

theorem dropWhile_ne_nil_of_not_all (l : List Char) (h : l.all pyIsSpace = false) :
    l.dropWhile pyIsSpace ≠ [] := by
  intro hc
  have hd := dropWhile_not_all_space l h
  rw [hc] at hd
  simp at hd

theorem stripRight_joinLines (ls : List (List Char)) (hne : ls ≠ [])
    (hall : ∀ l ∈ ls, l.all pyIsSpace = false ∧ '\n' ∉ l) :
    ∃ ls', stripRight (joinLines ls) = joinLines ls' ∧ ls' ≠ [] ∧
      (∀ l ∈ ls', l.all pyIsSpace = false ∧ '\n' ∉ l) ∧
      stripRight (joinLines ls) ≠ [] := by
  induction ls with
  | nil => exact absurd rfl hne
  | cons l ls ih =>
    cases ls with
    | nil =>
      have hl := hall l (List.mem_cons_self l [])
      have hnil : stripRight l ≠ [] := by
        intro hc
        have := (stripRight_eq_nil_iff l).mp hc
        rw [hl.1] at this
        exact Bool.noConfusion this
      refine ⟨[stripRight l], rfl, by simp, ?_, hnil⟩
      intro l' hl'
      rw [List.mem_singleton] at hl'
      subst hl'
      exact ⟨stripRight_not_all_space l hl.1,
        fun hm => hl.2 (mem_of_mem_stripRight '\n' l hm)⟩
    | cons l2 ls2 =>
      obtain ⟨ls', h1, h2, h3, h4⟩ :=
        ih (by simp) (fun x hx => hall x (List.mem_cons_of_mem l hx))
      have hJ : stripRight ('\n' :: joinLines (l2 :: ls2))
          = '\n' :: stripRight (joinLines (l2 :: ls2)) := by
        have hcond : ¬(stripRight (joinLines (l2 :: ls2)) = [] ∧ pyIsSpace '\n') :=
          fun hc => h4 hc.1
        simp [stripRight, hcond]
      have hsplit : stripRight (joinLines (l :: l2 :: ls2))
          = l ++ '\n' :: stripRight (joinLines (l2 :: ls2)) := by
        rw [joinLines_cons_of_ne_nil l (l2 :: ls2) (by simp),
          stripRight_append l ('\n' :: joinLines (l2 :: ls2)) (by rw [hJ]; simp), hJ]
      refine ⟨l :: ls', ?_, by simp, ?_, ?_⟩
      · rw [hsplit, h1, joinLines_cons_of_ne_nil l ls' h2]
      · intro x hx
        rcases List.mem_cons.mp hx with hx1 | hx2
        · exact hx1 ▸ hall l (List.mem_cons_self l _)
        · exact h3 x hx2
      · rw [hsplit]
        simp

theorem normalizeWs_lines (s : List Char) :
    normalizeWs s = [] ∨
      (∀ l ∈ splitLines (normalizeWs s), l.all pyIsSpace = false) := by
  unfold normalizeWs dropBlankLines
  cases hcase : (splitLines s).filter (fun l => !l.all pyIsSpace) with
  | nil =>
    left
    rfl
  | cons l0 ls0 =>
    right
    have hprops : ∀ l ∈ (splitLines s).filter (fun l => !l.all pyIsSpace),
        l.all pyIsSpace = false ∧ '\n' ∉ l := by
      intro l hl
      constructor
      · have := List.of_mem_filter hl
        simpa using this
      · exact no_newline_of_mem_splitLines l s (List.mem_of_mem_filter hl)
    rw [hcase] at hprops
    have hl0 := hprops l0 (List.mem_cons_self l0 ls0)
    have hdrop : (joinLines (l0 :: ls0)).dropWhile pyIsSpace
        = joinLines (l0.dropWhile pyIsSpace :: ls0) :=
      dropWhile_joinLines l0 ls0 (dropWhile_ne_nil_of_not_all l0 hl0.1)
    have hprops' : ∀ l ∈ (l0.dropWhile pyIsSpace :: ls0),
        l.all pyIsSpace = false ∧ '\n' ∉ l := by
      intro l hl
      rcases List.mem_cons.mp hl with h1 | h2
      · subst h1
        exact ⟨dropWhile_not_all_space l0 hl0.1,
          fun hm => hl0.2 (mem_of_mem_dropWhile pyIsSpace '\n' l0 hm)⟩
      · exact hprops l (List.mem_cons_of_mem l0 h2)
    obtain ⟨ls', h1, h2, h3, _⟩ :=
      stripRight_joinLines (l0.dropWhile pyIsSpace :: ls0) (by simp) hprops'
    unfold pyStrip
    rw [hdrop, h1, splitLines_joinLines ls' h2 (fun l hl => (h3 l hl).2)]
    exact fun l hl => (h3 l hl).1

theorem normalizeWs_of_clean (r : List Char) (hstrip : pyStrip r = r)
    (hlines : r = [] ∨ ∀ l ∈ splitLines r, l.all pyIsSpace = false) :
    normalizeWs r = r := by
  rcases hlines with hr | hl
  · subst hr
    rfl
  · unfold normalizeWs dropBlankLines
    have hfilter : (splitLines r).filter (fun l => !l.all pyIsSpace) = splitLines r := by
      apply List.filter_eq_self.mpr
      intro a ha
      simp [hl a ha]
    rw [hfilter, joinLines_splitLines, hstrip]

/-! ## Helper lemmas: no boilerplate literal survives `clean_text` -/

theorem contains_char_eq_containsLit (c : Char) (s : List Char) :
    s.contains c = containsLit false [c] s := by
  induction s with
  | nil => rfl
  | cons b bs ih =>
    rw [containsLit_cons]
    have hcontains : (b :: bs).contains c = (c == b || bs.contains c) := by
      cases hbe : c == b <;> simp [List.contains, List.elem, hbe]
    have hlm : litMatches false [c] (b :: bs) = (c == b) := by
      show (chEq false c b && litMatches false [] bs) = (c == b)
      rw [litMatches_nil, Bool.and_true]
      show decide (c = b) = (c == b)
      cases hbe : c == b
      · simp [beq_eq_false_iff_ne.mp hbe]
      · simp [eq_of_beq hbe]
    rw [hcontains, hlm, ih]

theorem cleanStr_no_origMsg (s : List Char) :
    containsLit true origMsgLit (cleanStr s) = false := by
  unfold cleanStr
  refine not_contains_normalizeWs_mono _ _ _ (by decide) (by decide) ?_
  refine not_contains_truncAt_mono _ _ _ _ _ ?_
  refine not_contains_truncAt_mono _ _ _ _ _ ?_
  refine not_contains_truncAt_mono _ _ _ _ _ ?_
  refine not_contains_sublineSub_mono _ _ _ _ (by decide) (by decide) ?_
  refine not_contains_sublineSub_mono _ _ _ _ (by decide) (by decide) ?_
  refine not_contains_sublineSub_mono _ _ _ _ (by decide) (by decide) ?_
  refine not_contains_sublineSub_mono _ _ _ _ (by decide) (by decide) ?_
  refine not_contains_sublineSub_mono _ _ _ _ (by decide) (by decide) ?_
  exact containsLit_truncAt_self true origMsgLit s (by decide)

theorem cleanStr_no_from (s : List Char) :
    containsLit false fromLit (cleanStr s) = false := by
  unfold cleanStr
  refine not_contains_normalizeWs_mono _ _ _ (by decide) (by decide) ?_
  refine not_contains_truncAt_mono _ _ _ _ _ ?_
  refine not_contains_truncAt_mono _ _ _ _ _ ?_
  refine not_contains_truncAt_mono _ _ _ _ _ ?_
  refine not_contains_sublineSub_mono _ _ _ _ (by decide) (by decide) ?_
  refine not_contains_sublineSub_mono _ _ _ _ (by decide) (by decide) ?_
  refine not_contains_sublineSub_mono _ _ _ _ (by decide) (by decide) ?_
  refine not_contains_sublineSub_mono _ _ _ _ (by decide) (by decide) ?_
  exact not_contains_sublineSub_self fromLit _ (by decide) (by decide)

theorem cleanStr_no_to (s : List Char) :
    containsLit false toLit (cleanStr s) = false := by
  unfold cleanStr
  refine not_contains_normalizeWs_mono _ _ _ (by decide) (by decide) ?_
  refine not_contains_truncAt_mono _ _ _ _ _ ?_
  refine not_contains_truncAt_mono _ _ _ _ _ ?_
  refine not_contains_truncAt_mono _ _ _ _ _ ?_
  refine not_contains_sublineSub_mono _ _ _ _ (by decide) (by decide) ?_
  refine not_contains_sublineSub_mono _ _ _ _ (by decide) (by decide) ?_
  refine not_contains_sublineSub_mono _ _ _ _ (by decide) (by decide) ?_
  exact not_contains_sublineSub_self toLit _ (by decide) (by decide)

theorem cleanStr_no_sent (s : List Char) :
    containsLit false sentLit (cleanStr s) = false := by
  unfold cleanStr
  refine not_contains_normalizeWs_mono _ _ _ (by decide) (by decide) ?_
  refine not_contains_truncAt_mono _ _ _ _ _ ?_
  refine not_contains_truncAt_mono _ _ _ _ _ ?_
  refine not_contains_truncAt_mono _ _ _ _ _ ?_
  refine not_contains_sublineSub_mono _ _ _ _ (by decide) (by decide) ?_
  refine not_contains_sublineSub_mono _ _ _ _ (by decide) (by decide) ?_
  exact not_contains_sublineSub_self sentLit _ (by decide) (by decide)

theorem cleanStr_no_subject (s : List Char) :
    containsLit false subjectLit (cleanStr s) = false := by
  unfold cleanStr
  refine not_contains_normalizeWs_mono _ _ _ (by decide) (by decide) ?_
  refine not_contains_truncAt_mono _ _ _ _ _ ?_
  refine not_contains_truncAt_mono _ _ _ _ _ ?_
  refine not_contains_truncAt_mono _ _ _ _ _ ?_
  refine not_contains_sublineSub_mono _ _ _ _ (by decide) (by decide) ?_
  exact not_contains_sublineSub_self subjectLit _ (by decide) (by decide)

theorem cleanStr_no_gt (s : List Char) :
    containsLit false gtLit (cleanStr s) = false := by
  unfold cleanStr
  refine not_contains_normalizeWs_mono _ _ _ (by decide) (by decide) ?_
  refine not_contains_truncAt_mono _ _ _ _ _ ?_
  refine not_contains_truncAt_mono _ _ _ _ _ ?_
  refine not_contains_truncAt_mono _ _ _ _ _ ?_
  exact not_contains_sublineSub_self gtLit _ (by decide) (by decide)

theorem cleanStr_no_sincerely (s : List Char) :
    containsLit true sincerelyLit (cleanStr s) = false := by
  unfold cleanStr
  refine not_contains_normalizeWs_mono _ _ _ (by decide) (by decide) ?_
  refine not_contains_truncAt_mono _ _ _ _ _ ?_
  refine not_contains_truncAt_mono _ _ _ _ _ ?_
  exact containsLit_truncAt_self true sincerelyLit _ (by decide)

theorem cleanStr_no_bestRegards (s : List Char) :
    containsLit true bestRegardsLit (cleanStr s) = false := by
  unfold cleanStr
  refine not_contains_normalizeWs_mono _ _ _ (by decide) (by decide) ?_
  refine not_contains_truncAt_mono _ _ _ _ _ ?_
  exact containsLit_truncAt_self true bestRegardsLit _ (by decide)

theorem cleanStr_no_confNotice (s : List Char) :
    containsLit true confNoticeLit (cleanStr s) = false := by
  unfold cleanStr
  refine not_contains_normalizeWs_mono _ _ _ (by decide) (by decide) ?_
  exact containsLit_truncAt_self true confNoticeLit _ (by decide)

theorem pyStrip_normalizeWs (x : List Char) : pyStrip (normalizeWs x) = normalizeWs x := by
  unfold normalizeWs
  exact pyStrip_idem (dropBlankLines x)

theorem cleanStr_pyStrip (s : List Char) : pyStrip (cleanStr s) = cleanStr s :=
  pyStrip_normalizeWs _

theorem cleanStr_lines (s : List Char) :
    cleanStr s = [] ∨ ∀ l ∈ splitLines (cleanStr s), l.all pyIsSpace = false :=
  normalizeWs_lines _

/-! ## Helper lemmas: pipeline plumbing -/

theorem parseStep_snd (fs : List (Except Unit ParsedEmail)) : (parseStep fs).2 = [] := by
  induction fs with
  | nil => rfl
  | cons f fs ih => cases f <;> simpa [parseStep] using ih

theorem parseStep_fst (fs : List (Except Unit ParsedEmail)) :
    (parseStep fs).1 = fs.filterMap Except.toOption := by
  induction fs with
  | nil => rfl
  | cons f fs ih => cases f <;> simp [parseStep, Except.toOption, ih]

theorem zip_self_map {α β : Type} (l : List α) (f : α → β) :
    l.zip (l.map f) = l.map (fun a => (a, f a)) := by
  induction l with
  | nil => rfl
  | cons a l ih => simp [ih]

theorem operatorFor_srcOperators (ety : List Char) :
    operatorFor srcOperators ety = some (AnonOperator.replace ("<REDACTED>").toList) := by
  unfold operatorFor srcOperators
  cases h : ety == ("DEFAULT").toList
  all_goals simp only [List.lookup, h]
  all_goals rfl

/-! ## Claim theorems: error handling and pipeline -/

/-- C8: `clean_text` is total over arbitrary inputs — on any non-string value
it returns the empty string rather than raising. -/
theorem claim_C8 (v : PyVal) (h : v.isStr = false) : clean_text v = [] := by
  cases v with
  | pstr s => simp [PyVal.isStr] at h
  | other => rfl

theorem claim_C8_witness : PyVal.other.isStr = false ∧ clean_text PyVal.other = [] :=
  ⟨rfl, claim_C8 PyVal.other rfl⟩

/-- C9: on a falsy input text (`None` or the empty string) `anonymize_text`
returns `""` at once: whatever the analyzer and anonymizer do, the result is
the empty string and nothing is printed, so the engines are never consulted
and no failure or log message is possible. -/
theorem claim_C9
    (analyzer : List Char → Except (List Char) (List RecognizerResult))
    (anonymizer : List Char → List RecognizerResult → Except (List Char) (List Char)) :
    anonymize_text analyzer anonymizer none = ([], []) ∧
      anonymize_text analyzer anonymizer (some []) = ([], []) :=
  ⟨rfl, rfl⟩

/-- C1: whenever the anonymization step (the analyzer call followed by the
anonymizer call) raises an exception `e` on a non-empty text, `anonymize_text`
returns the original text unchanged together with exactly one log line printed
to standard output; being a total function, it never propagates the
exception. -/
theorem claim_C1
    (analyzer : List Char → Except (List Char) (List RecognizerResult))
    (anonymizer : List Char → List RecognizerResult → Except (List Char) (List Char))
    (s e : List Char) (hs : s ≠ [])
    (herr : anonymizeAttempt analyzer anonymizer s = Except.error e) :
    anonymize_text analyzer anonymizer (some s) = (s, [logMsg e]) := by
  cases s with
  | nil => exact absurd rfl hs
  | cons c cs => simp [anonymize_text, herr]

theorem claim_C1_witness :
    (['a'] : List Char) ≠ [] ∧
      anonymize_text (fun _ => Except.error ['b']) (fun _ _ => Except.ok [])
        (some ['a']) = (['a'], [logMsg ['b']]) :=
  ⟨by decide, claim_C1 (fun _ => Except.error ['b']) (fun _ _ => Except.ok [])
    ['a'] ['b'] (by decide) rfl⟩

/-- C2: with the operator map built by `anonymize_text` (a single `DEFAULT`
entry `replace "<REDACTED>"`), the anonymizer replaces every detected entity
span by the fixed token `"<REDACTED>"`, regardless of the entity's type: the
engine run coincides with the spec's plain span-replacement description. -/
theorem claim_C2 (s : List Char) (results : List RecognizerResult) :
    presidio_anonymize s results srcOperators = spec_redact s results := by
  induction results with
  | nil => rfl
  | cons r rs ih =>
    simp [presidio_anonymize, spec_redact] at ih ⊢
    rw [operatorFor_srcOperators, ih]
    rfl

/-- C7: a file whose reading or parsing raises an exception adds no row and
prints nothing, and the remaining files are processed as if it were absent;
moreover the parsing loop prints nothing at all. -/
theorem claim_C7 (pre post : List (Except Unit ParsedEmail)) (e : Unit) :
    parseStep (pre ++ Except.error e :: post) = parseStep (pre ++ post) ∧
      (parseStep (pre ++ post)).2 = [] := by
  refine ⟨?_, parseStep_snd _⟩
  induction pre with
  | nil => rfl
  | cons f pre ih => cases f <;> simp [parseStep, ih]

/-- C5: every row of the final table has a text that is non-empty after
stripping whitespace — rows with blank text are dropped before writing. -/
theorem claim_C5
    (analyzer : List Char → Except (List Char) (List RecognizerResult))
    (anonymizer : List Char → List RecognizerResult → Except (List Char) (List Char))
    (files : List (Except Unit ParsedEmail)) (row : OutRow)
    (hmem : row ∈ mainPipeline analyzer anonymizer files) :
    pyStrip row.text ≠ [] := by
  have hp := (List.mem_filter.mp hmem).2
  intro hnil
  rw [hnil] at hp
  simp at hp

theorem claim_C5_witness :
    (OutRow.mk none ['h', 'i'] ∈
        mainPipeline (fun _ => Except.error []) (fun _ _ => Except.ok [])
          [Except.ok (ParsedEmail.mk none ['h', 'i'])]) ∧
      pyStrip (OutRow.mk none ['h', 'i']).text ≠ [] :=
  ⟨by decide,
    claim_C5 (fun _ => Except.error []) (fun _ _ => Except.ok [])
      [Except.ok (ParsedEmail.mk none ['h', 'i'])] (OutRow.mk none ['h', 'i'])
      (by decide)⟩

/-- C3: `clean_text` is idempotent — reapplying it to its own output changes
nothing, so on already-clean text (the image of `clean_text`) it is the
identity. -/
theorem claim_C3 (v : PyVal) :
    clean_text (PyVal.pstr (clean_text v)) = clean_text v := by
  cases v with
  | other =>
    show cleanStr [] = []
    decide
  | pstr s =>
    show cleanStr (cleanStr s) = cleanStr s
    show normalizeWs
      (truncAt true confNoticeLit
        (truncAt true bestRegardsLit
          (truncAt true sincerelyLit
            (sublineSub gtLit
              (sublineSub subjectLit
                (sublineSub sentLit
                  (sublineSub toLit
                    (sublineSub fromLit
                      (truncAt true origMsgLit (cleanStr s)))))))))) = cleanStr s
    rw [truncAt_of_not_contains true origMsgLit (cleanStr s) (cleanStr_no_origMsg s)]
    rw [sublineSub_of_not_contains fromLit (cleanStr s) (by decide) (by decide)
      (cleanStr_no_from s)]
    rw [sublineSub_of_not_contains toLit (cleanStr s) (by decide) (by decide)
      (cleanStr_no_to s)]
    rw [sublineSub_of_not_contains sentLit (cleanStr s) (by decide) (by decide)
      (cleanStr_no_sent s)]
    rw [sublineSub_of_not_contains subjectLit (cleanStr s) (by decide) (by decide)
      (cleanStr_no_subject s)]
    rw [sublineSub_of_not_contains gtLit (cleanStr s) (by decide) (by decide)
      (cleanStr_no_gt s)]
    rw [truncAt_of_not_contains true sincerelyLit (cleanStr s) (cleanStr_no_sincerely s)]
    rw [truncAt_of_not_contains true bestRegardsLit (cleanStr s) (cleanStr_no_bestRegards s)]
    rw [truncAt_of_not_contains true confNoticeLit (cleanStr s) (cleanStr_no_confNotice s)]
    exact normalizeWs_of_clean (cleanStr s) (cleanStr_pyStrip s) (cleanStr_lines s)

/-- C4: no named boilerplate pattern survives `clean_text`: no output line
contains "From:", "To:", "Sent:" or "Subject:"; no '>' character remains; and
no case-insensitive occurrence of "-----Original Message-----", "Sincerely",
"Best regards" or "Confidentiality Notice" remains.  Occurrence of a literal
is decided by `containsLit` and character membership by `List.contains`. -/
theorem claim_C4 (s : List Char) :
    (splitLines (clean_text (PyVal.pstr s))).all
        (fun l => !containsLit false fromLit l && !containsLit false toLit l
          && !containsLit false sentLit l && !containsLit false subjectLit l) = true ∧
      (clean_text (PyVal.pstr s)).contains '>' = false ∧
      containsLit true origMsgLit (clean_text (PyVal.pstr s)) = false ∧
      containsLit true sincerelyLit (clean_text (PyVal.pstr s)) = false ∧
      containsLit true bestRegardsLit (clean_text (PyVal.pstr s)) = false ∧
      containsLit true confNoticeLit (clean_text (PyVal.pstr s)) = false := by
  refine ⟨?_, ?_, cleanStr_no_origMsg s, cleanStr_no_sincerely s,
    cleanStr_no_bestRegards s, cleanStr_no_confNotice s⟩
  · apply List.all_eq_true.mpr
    intro l hl
    have h1 := lines_not_contains_of_not_contains false fromLit (cleanStr s)
      (by decide) (by decide) (cleanStr_no_from s) l hl
    have h2 := lines_not_contains_of_not_contains false toLit (cleanStr s)
      (by decide) (by decide) (cleanStr_no_to s) l hl
    have h3 := lines_not_contains_of_not_contains false sentLit (cleanStr s)
      (by decide) (by decide) (cleanStr_no_sent s) l hl
    have h4 := lines_not_contains_of_not_contains false subjectLit (cleanStr s)
      (by decide) (by decide) (cleanStr_no_subject s) l hl
    simp [h1, h2, h3, h4]
  · rw [contains_char_eq_containsLit]
    exact cleanStr_no_gt s

/-- C10: the output of `clean_text` is whitespace-normalized: it equals its
own strip(), and unless it is the empty string it has no blank or
whitespace-only lines. -/
theorem claim_C10 (v : PyVal) :
    pyStrip (clean_text v) = clean_text v ∧
      (clean_text v = [] ∨
        (splitLines (clean_text v)).all (fun l => !l.all pyIsSpace) = true) := by
  cases v with
  | other => exact ⟨rfl, Or.inl rfl⟩
  | pstr s =>
    refine ⟨cleanStr_pyStrip s, ?_⟩
    rcases cleanStr_lines s with h | h
    · exact Or.inl h
    · refine Or.inr (List.all_eq_true.mpr ?_)
      intro l hl
      simp [h l hl]

/-- C6: the output table is exactly one row per input file that parsed
successfully and whose cleaned-and-anonymized text is not whitespace-only; in
particular its row count equals the number of such files. -/
theorem claim_C6
    (analyzer : List Char → Except (List Char) (List RecognizerResult))
    (anonymizer : List Char → List RecognizerResult → Except (List Char) (List Char))
    (files : List (Except Unit ParsedEmail)) :
    mainPipeline analyzer anonymizer files =
        ((files.filterMap Except.toOption).filter
            (fun p => !(pyStrip (processedText analyzer anonymizer p)).isEmpty)).map
          (fun p => OutRow.mk p.sender (processedText analyzer anonymizer p)) ∧
      (mainPipeline analyzer anonymizer files).length =
        ((files.filterMap Except.toOption).filter
            (fun p => !(pyStrip (processedText analyzer anonymizer p)).isEmpty)).length := by
  have hmain :
      mainPipeline analyzer anonymizer files =
        ((files.filterMap Except.toOption).filter
            (fun p => !(pyStrip (processedText analyzer anonymizer p)).isEmpty)).map
          (fun p => OutRow.mk p.sender (processedText analyzer anonymizer p)) := by
    unfold mainPipeline
    simp only [parseStep_fst, List.map_map, zip_self_map, List.filter_map]
    simp only [Function.comp_def, processedText]
  exact ⟨hmain, by rw [hmain, List.length_map]⟩

end Enron
